import Mathlib

/-!
Shallow embedding of the SunFlux repository core (src/aindex.py and
src/proton_flux.py): the threshold classifier, the daily WWV aggregation
query, the proton-flux freshness cache, the banded download parser, the
cache writer and the exit status of proton_flux.main.

Values that are Python floats or SQL numerics are modelled as exact
rationals (ℚ); timestamps are unix-epoch seconds modelled as ℤ (aindex)
or ℕ keys (proton flux).
-/

namespace SunFlux

/-! ## aindex.py: severity classification (graph, lines 86-95)

The colour loop in `graph` assigns a colour per average value:
`lightgreen` by default, `darkorange` when `20 < val < 30`, `red` when
`30 < val < 50`, `darkred` when `50 < val < 100`, `darkmagenta` when
`val >= 100`.  The spec names these bands Nominal, Elevated, High,
Severe, Extreme respectively; we embed the chained comparisons exactly. -/

inductive Category where
  | Nominal
  | Elevated
  | High
  | Severe
  | Extreme
deriving DecidableEq, Repr

/-- Embeds the colour-selection chain of `aindex.graph` (the repository's
classifier): `if 20 < val < 30 … elif 30 < val < 50 … elif 50 < val < 100
… elif val >= 100 …` with the initial `lightgreen` as the fall-through. -/
def classify (val : ℚ) : Category :=
  if 20 < val ∧ val < 30 then .Elevated
  else if 30 < val ∧ val < 50 then .High
  else if 50 < val ∧ val < 100 then .Severe
  else if 100 ≤ val then .Extreme
  else .Nominal

/-! ## aindex.py: daily aggregation (WWV_REQUEST and get_wwv, lines 30-35, 54-69)

`get_wwv` runs
`SELECT MAX(wwv.A), AVG(wwv.A), MIN(wwv.A), DATE(DATETIME(wwv.time, "unixepoch")) AS dt
 FROM wwv WHERE wwv.time > ? GROUP BY dt`
and re-orders each result row into `(date, max, avg, min)`.
`DATE(DATETIME(t,'unixepoch'))` truncates a unix timestamp to its UTC
calendar day, embedded as floor division by 86400.  SQLite evaluates a
`GROUP BY` on an expression through a sorter, so groups are emitted in
ascending day order; the embedding produces the strictly ascending list
of day keys of the filtered rows and one aggregate row per key. -/

structure WWVRow where
  time : ℤ
  A : ℚ
deriving DecidableEq, Repr

def dayKey (t : ℤ) : ℤ := Int.fdiv t 86400

/-- `WHERE wwv.time > ?` — a strict lower bound on the timestamp. -/
def wwvFilter (rows : List WWVRow) (since : ℤ) : List WWVRow :=
  rows.filter fun r => since < r.time

/-- Insert a day key into a strictly ascending key list, keeping it
strictly ascending (duplicates collapse): the set of `GROUP BY` keys in
emission order. -/
def insertKey (k : ℤ) : List ℤ → List ℤ
  | [] => [k]
  | x :: xs => if k < x then k :: x :: xs else if k = x then x :: xs else x :: insertKey k xs

def sortedKeys (rows : List WWVRow) : List ℤ :=
  rows.foldr (fun r ks => insertKey (dayKey r.time) ks) []

/-- SQL `MAX` over a group (running maximum; 0 is an unreachable default,
groups are never empty). -/
def maxA : List ℚ → ℚ
  | [] => 0
  | x :: xs => xs.foldl max x

/-- SQL `MIN` over a group. -/
def minA : List ℚ → ℚ
  | [] => 0
  | x :: xs => xs.foldl min x

/-- SQL `AVG` over a group: sum divided by count. -/
def avgA (l : List ℚ) : ℚ := l.sum / (l.length : ℚ)

/-- The rows of the group for day `d` (rows passing the time filter whose
truncated date is `d`). -/
def dayGroup (rows : List WWVRow) (since : ℤ) (d : ℤ) : List WWVRow :=
  (wwvFilter rows since).filter fun r => dayKey r.time = d

/-- The `(date, max, avg, min)` tuple `get_wwv` appends for day `d`
(the SQL row `MAX(A), AVG(A), MIN(A), dt` re-ordered by line 68). -/
def dayBucket (rows : List WWVRow) (since : ℤ) (d : ℤ) : ℤ × ℚ × ℚ × ℚ :=
  (d, maxA ((dayGroup rows since d).map WWVRow.A),
   avgA ((dayGroup rows since d).map WWVRow.A),
   minA ((dayGroup rows since d).map WWVRow.A))

/-- `get_wwv`: one `(date, max, avg, min)` tuple per day group, in the
order the `GROUP BY` emits them (ascending day). -/
def get_wwv (rows : List WWVRow) (since : ℤ) : List (ℤ × ℚ × ℚ × ℚ) :=
  (sortedKeys (wwvFilter rows since)).map (dayBucket rows since)

/-! ## proton_flux.py: the banded download parser (ProtonFlux.download, lines 70-92)

`download` parses the NOAA JSON into a dict keyed by timestamp; a first
loop seeds every timestamp with `{k: 0.0 for k in (1, 10, 100, 30, 5,
50, 500, 60)}`, a second loop overwrites `data[date][energy]` with each
sample's flux.  Python dicts are embedded as association lists with
dict-assignment semantics (update in place if the key exists, append
otherwise). -/

abbrev BandMap := List (ℕ × ℚ)

abbrev FluxData := List (ℕ × BandMap)

/-- Python dict assignment `d[k] = v`: replace in place, else append. -/
def dictInsert {α : Type} (k : ℕ) (v : α) : List (ℕ × α) → List (ℕ × α)
  | [] => [(k, v)]
  | (k', v') :: rest =>
      if k = k' then (k, v) :: rest else (k', v') :: dictInsert k v rest

/-- Python dict lookup `d[k]` (first — and only — binding of `k`). -/
def dictGet {α : Type} (k : ℕ) : List (ℕ × α) → Option α
  | [] => none
  | (k', v') :: rest => if k = k' then some v' else dictGet k rest

/-- One parsed element of the NOAA JSON array: timestamp, the MeV
threshold extracted from the `energy` field, and the flux value. -/
structure FluxRow where
  time_tag : ℕ
  energy : ℕ
  flux : ℚ
deriving DecidableEq, Repr

/-- The tuple `(1, 10, 100, 30, 5, 50, 500, 60)` of line 86. -/
def fixedBands : List ℕ := [1, 10, 100, 30, 5, 50, 500, 60]

/-- `{k: 0.0 for k in (1, 10, 100, 30, 5, 50, 500, 60)}`. -/
def initBands : BandMap := fixedBands.map fun k => (k, 0)

/-- First loop of `download`: `data[elem['time_tag']] = {k: 0.0 for k in …}`,
starting from the accumulator `d0` (`dict()` on line 84). -/
def seedLoop (rows : List FluxRow) (d0 : FluxData) : FluxData :=
  rows.foldl (fun d e => dictInsert e.time_tag initBands d) d0

/-- Second loop of `download`: `data[date][energy] = elem['flux']`
(in-place update of the inner dict; the timestamp is always present
after the first loop, so the `getD []` default is unreachable). -/
def fillLoop (rows : List FluxRow) (d0 : FluxData) : FluxData :=
  rows.foldl
    (fun d e =>
      dictInsert e.time_tag (dictInsert e.energy e.flux ((dictGet e.time_tag d).getD [])) d)
    d0

/-- `ProtonFlux.download` on a successfully parsed payload. -/
def downloadData (rows : List FluxRow) : FluxData :=
  fillLoop rows (seedLoop rows [])

/-- The value the parsed structure holds for band `b` at timestamp `t`
(`data[t][b]`). -/
def bandValue (d : FluxData) (t b : ℕ) : Option ℚ :=
  (dictGet t d).bind (dictGet b)

/-! ## proton_flux.py: the freshness cache (ProtonFlux.__init__ and
readcache, lines 54-68 and 94-102)

`__init__` stats the cache file; a missing file or `now - mtime >
cache_time` raises `FileNotFoundError`, caught by the handler that runs
`download()` then `writecache()`; otherwise `readcache()` runs.
`readcache` unpickles the file, turning `FileNotFoundError`/`EOFError`
into `data = None`; any other unpickling failure propagates.
`download` itself has no exception handler: a network or parse error
propagates out of `__init__`.  Exceptions are embedded as `Except`. -/

inductive PickleContent where
  | ok (p : FluxData)
  | empty
  | garbage
deriving DecidableEq, Repr

inductive NetErr where
  | urlError
  | parseError
deriving DecidableEq, Repr

inductive InitErr where
  | net (e : NetErr)
  | unpickling
deriving DecidableEq, Repr

structure CacheFile where
  mtime : ℚ
  content : PickleContent
deriving DecidableEq, Repr

/-- Outcome of a non-raising `ProtonFlux.__init__`: how many times
`download` ran, the final `self.data`, and whether `writecache` ran. -/
structure InitResult where
  downloads : ℕ
  data : Option FluxData
  wroteCache : Bool
deriving DecidableEq, Repr

/-- `ProtonFlux.readcache`: unpickle; `FileNotFoundError`/`EOFError`
yield `data = None`; other corruption propagates. -/
def readcache : PickleContent → Except InitErr (Option FluxData)
  | .ok p => .ok (some p)
  | .empty => .ok none
  | .garbage => .error .unpickling

/-- The `except FileNotFoundError:` handler body: `self.download()` then
`self.writecache()`; a download failure propagates. -/
def doRefresh (dl : Except NetErr FluxData) : Except InitErr InitResult :=
  match dl with
  | .error e => .error (.net e)
  | .ok d => .ok ⟨1, some d, true⟩

/-- `ProtonFlux.__init__`: `file` is the state of the cache file
(`none` = `os.stat` raises `FileNotFoundError`), `dl` the outcome the
network fetch would have. -/
def pfInit (file : Option CacheFile) (now ttl : ℚ)
    (dl : Except NetErr FluxData) : Except InitErr InitResult :=
  match file with
  | none => doRefresh dl
  | some f =>
      if now - f.mtime > ttl then doRefresh dl
      else (readcache f.content).map fun d => ⟨0, d, false⟩

/-- How many times `__init__` invokes `download` (counted even when the
download then raises). -/
def downloadCalls (file : Option CacheFile) (now ttl : ℚ) : ℕ :=
  match file with
  | none => 1
  | some f => if now - f.mtime > ttl then 1 else 0

/-! ## proton_flux.py: writecache (lines 104-108)

`writecache` runs `open(self.cachefile, 'wb')` — which truncates the
canonical path in place — and then `pickle.dump` writes the new bytes.
The observable contents of the canonical path over the write are
embedded as the list of successive states: the prior bytes, the
truncated (empty) file, the new bytes.  No temporary file or rename is
involved. -/

def writecacheStates (pre pickled : List ℕ) : List (List ℕ) :=
  [pre, [], pickled]

/-! ## proton_flux.py: graph and main (lines 115-155 and 158-175)

`graph` renders the plot and falls off the end of its body, so a
non-raising call returns `None`.  `main` runs
`if not p_f.graph(name): return os.EX_DATAERR` and otherwise
`return os.EX_OK`. -/

def EX_OK : ℕ := 0

def EX_DATAERR : ℕ := 65

/-- The value a non-raising `ProtonFlux.graph` returns: the function has
no `return` statement, so Python returns `None`. -/
def graphReturn : Option Unit := none

/-- Python truthiness of `graph`'s possible return values. -/
def pyTruthy : Option Unit → Bool
  | none => false
  | some _ => true

/-- The tail of `main`: `if not p_f.graph(name): return os.EX_DATAERR;
return os.EX_OK`. -/
def mainExit (g : Option Unit) : ℕ :=
  if pyTruthy g then EX_OK else EX_DATAERR

/-! ## Theorems -/

/-! ### Helper lemmas on the aggregation embedding -/

theorem mem_insertKey {x k : ℤ} {l : List ℤ} :
    x ∈ insertKey k l ↔ x = k ∨ x ∈ l := by
  induction l with
  | nil => simp [insertKey]
  | cons y ys ih =>
      simp only [insertKey]
      split_ifs with h1 h2
      · simp [List.mem_cons]
      · subst h2
        simp only [List.mem_cons]
        tauto
      · simp only [List.mem_cons, ih]
        tauto

theorem insertKey_pairwise {k : ℤ} {l : List ℤ} (h : l.Pairwise (· < ·)) :
    (insertKey k l).Pairwise (· < ·) := by
  induction l with
  | nil => simp [insertKey]
  | cons y ys ih =>
      rw [List.pairwise_cons] at h
      obtain ⟨hy, hys⟩ := h
      simp only [insertKey]
      split_ifs with h1 h2
      · refine List.pairwise_cons.mpr ⟨?_, List.pairwise_cons.mpr ⟨hy, hys⟩⟩
        intro z hz
        rcases List.mem_cons.mp hz with rfl | hz
        · exact h1
        · exact lt_trans h1 (hy z hz)
      · exact List.pairwise_cons.mpr ⟨hy, hys⟩
      · refine List.pairwise_cons.mpr ⟨?_, ih hys⟩
        intro z hz
        rcases mem_insertKey.mp hz with rfl | hz
        · omega
        · exact hy z hz

theorem sortedKeys_pairwise (rows : List WWVRow) :
    (sortedKeys rows).Pairwise (· < ·) := by
  induction rows with
  | nil => simp [sortedKeys]
  | cons r rs ih => exact insertKey_pairwise ih

theorem mem_sortedKeys {d : ℤ} {rows : List WWVRow} :
    d ∈ sortedKeys rows ↔ ∃ r ∈ rows, dayKey r.time = d := by
  induction rows with
  | nil => simp [sortedKeys]
  | cons r rs ih =>
      rw [show sortedKeys (r :: rs) = insertKey (dayKey r.time) (sortedKeys rs) from rfl,
        mem_insertKey, ih]
      constructor
      · rintro (rfl | ⟨r', hr', rfl⟩)
        · exact ⟨r, List.mem_cons_self r rs, rfl⟩
        · exact ⟨r', List.mem_cons_of_mem _ hr', rfl⟩
      · rintro ⟨r', hr', rfl⟩
        rcases List.mem_cons.mp hr' with rfl | hr'
        · exact Or.inl rfl
        · exact Or.inr ⟨r', hr', rfl⟩

theorem sortedKeys_perm {rows rows' : List WWVRow}
    (p : List.Perm rows rows') : sortedKeys rows = sortedKeys rows' := by
  have s1 := sortedKeys_pairwise rows
  have s2 := sortedKeys_pairwise rows'
  refine List.eq_of_perm_of_sorted ?_ s1 s2
  refine List.perm_of_nodup_nodup_toFinset_eq
    (s1.imp fun h => ne_of_lt h) (s2.imp fun h => ne_of_lt h) ?_
  ext x
  simp only [List.mem_toFinset, mem_sortedKeys]
  constructor
  · rintro ⟨r, hr, rfl⟩
    exact ⟨r, p.mem_iff.mp hr, rfl⟩
  · rintro ⟨r, hr, rfl⟩
    exact ⟨r, p.mem_iff.mpr hr, rfl⟩

theorem le_foldl_max (xs : List ℚ) : ∀ (a y : ℚ), y = a ∨ y ∈ xs → y ≤ xs.foldl max a := by
  induction xs with
  | nil =>
      rintro a y (rfl | h)
      · exact le_refl y
      · cases h
  | cons b bs ih =>
      rintro a y (rfl | h)
      · exact le_trans (le_max_left y b) (ih (max y b) _ (Or.inl rfl))
      · rcases List.mem_cons.mp h with rfl | h
        · exact le_trans (le_max_right a y) (ih (max a y) _ (Or.inl rfl))
        · exact ih (max a b) y (Or.inr h)

theorem foldl_max_mem (xs : List ℚ) :
    ∀ a : ℚ, xs.foldl max a = a ∨ xs.foldl max a ∈ xs := by
  induction xs with
  | nil => intro a; exact Or.inl rfl
  | cons b bs ih =>
      intro a
      rcases ih (max a b) with h | h
      · rcases max_choice a b with hm | hm
        · exact Or.inl (h.trans hm)
        · exact Or.inr (List.mem_cons.mpr (Or.inl (h.trans hm)))
      · exact Or.inr (List.mem_cons.mpr (Or.inr h))

theorem foldl_min_le (xs : List ℚ) : ∀ (a y : ℚ), y = a ∨ y ∈ xs → xs.foldl min a ≤ y := by
  induction xs with
  | nil =>
      rintro a y (rfl | h)
      · exact le_refl y
      · cases h
  | cons b bs ih =>
      rintro a y (rfl | h)
      · exact le_trans (ih (min y b) _ (Or.inl rfl)) (min_le_left y b)
      · rcases List.mem_cons.mp h with rfl | h
        · exact le_trans (ih (min a y) _ (Or.inl rfl)) (min_le_right a y)
        · exact ih (min a b) y (Or.inr h)

theorem foldl_min_mem (xs : List ℚ) :
    ∀ a : ℚ, xs.foldl min a = a ∨ xs.foldl min a ∈ xs := by
  induction xs with
  | nil => intro a; exact Or.inl rfl
  | cons b bs ih =>
      intro a
      rcases ih (min a b) with h | h
      · rcases min_choice a b with hm | hm
        · exact Or.inl (h.trans hm)
        · exact Or.inr (List.mem_cons.mpr (Or.inl (h.trans hm)))
      · exact Or.inr (List.mem_cons.mpr (Or.inr h))

theorem maxA_mem {l : List ℚ} (h : l ≠ []) : maxA l ∈ l := by
  cases l with
  | nil => exact absurd rfl h
  | cons x xs =>
      simp only [maxA]
      rcases foldl_max_mem xs x with h' | h'
      · rw [h']
        exact List.mem_cons_self x xs
      · exact List.mem_cons.mpr (Or.inr h')

theorem le_maxA {y : ℚ} {l : List ℚ} (h : y ∈ l) : y ≤ maxA l := by
  cases l with
  | nil => exact absurd h (List.not_mem_nil y)
  | cons x xs =>
      simp only [maxA]
      rcases List.mem_cons.mp h with rfl | h'
      · exact le_foldl_max xs y y (Or.inl rfl)
      · exact le_foldl_max xs x y (Or.inr h')

theorem minA_mem {l : List ℚ} (h : l ≠ []) : minA l ∈ l := by
  cases l with
  | nil => exact absurd rfl h
  | cons x xs =>
      simp only [minA]
      rcases foldl_min_mem xs x with h' | h'
      · rw [h']
        exact List.mem_cons_self x xs
      · exact List.mem_cons.mpr (Or.inr h')

theorem minA_le {y : ℚ} {l : List ℚ} (h : y ∈ l) : minA l ≤ y := by
  cases l with
  | nil => exact absurd h (List.not_mem_nil y)
  | cons x xs =>
      simp only [minA]
      rcases List.mem_cons.mp h with rfl | h'
      · exact foldl_min_le xs y y (Or.inl rfl)
      · exact foldl_min_le xs x y (Or.inr h')

theorem maxA_perm {l l' : List ℚ} (p : List.Perm l l') : maxA l = maxA l' := by
  rcases eq_or_ne l [] with rfl | h
  · rw [p.nil_eq]
  · have h' : l' ≠ [] := fun hh => h (List.Perm.eq_nil (hh ▸ p))
    exact le_antisymm (le_maxA (p.mem_iff.mp (maxA_mem h)))
      (le_maxA (p.mem_iff.mpr (maxA_mem h')))

theorem minA_perm {l l' : List ℚ} (p : List.Perm l l') : minA l = minA l' := by
  rcases eq_or_ne l [] with rfl | h
  · rw [p.nil_eq]
  · have h' : l' ≠ [] := fun hh => h (List.Perm.eq_nil (hh ▸ p))
    exact le_antisymm (minA_le (p.mem_iff.mpr (minA_mem h')))
      (minA_le (p.mem_iff.mp (minA_mem h)))

theorem avgA_perm {l l' : List ℚ} (p : List.Perm l l') : avgA l = avgA l' := by
  unfold avgA
  rw [p.sum_eq, p.length_eq]

theorem avgA_between {l : List ℚ} (h : l ≠ []) :
    minA l ≤ avgA l ∧ avgA l ≤ maxA l := by
  have hn : 0 < (l.length : ℚ) := by
    exact_mod_cast List.length_pos.mpr h
  constructor
  · rw [avgA, le_div_iff₀ hn]
    calc minA l * (l.length : ℚ) = (l.length : ℚ) * minA l := mul_comm _ _
      _ ≤ l.sum := by
          simpa [nsmul_eq_mul] using
            List.card_nsmul_le_sum l (minA l) fun x hx => minA_le hx
  · rw [avgA, div_le_iff₀ hn]
    calc l.sum ≤ (l.length : ℚ) * maxA l := by
          simpa [nsmul_eq_mul] using
            List.sum_le_card_nsmul l (maxA l) fun x hx => le_maxA hx
      _ = maxA l * (l.length : ℚ) := mul_comm _ _

theorem get_wwv_keys (rows : List WWVRow) (since : ℤ) :
    (get_wwv rows since).map Prod.fst = sortedKeys (wwvFilter rows since) := by
  unfold get_wwv
  rw [List.map_map]
  have : Prod.fst ∘ dayBucket rows since = fun d => d := rfl
  rw [this]
  exact List.map_id _


/-- A value matched by none of the four colour guards is at most 20 or
one of the two interior boundary points. -/
theorem classify_nominal_aux {v : ℚ} (h1 : 20 < v → 30 ≤ v)
    (h2 : 30 < v → 50 ≤ v) (h3 : 50 < v → 100 ≤ v) (h4 : v < 100) :
    v ≤ 20 ∨ v = 30 ∨ v = 50 := by
  rcases le_or_lt v 20 with hv | hv
  · exact Or.inl hv
  · rcases eq_or_lt_of_le (h1 hv) with hv1 | hv1
    · exact Or.inr (Or.inl hv1.symm)
    · rcases eq_or_lt_of_le (h2 hv1) with hv2 | hv2
      · exact Or.inr (Or.inr hv2.symm)
      · linarith [h3 hv2]

/-- Claim C1 (counterexample): the classifier of `aindex.graph` uses
strict chained comparisons, so the boundary values 20, 30 and 50 fall to
the default band `Nominal` rather than to the upper band: in particular
`classify 20 = Nominal`, refuting `classify(20.0) = Elevated`, and
`classify 30 = Nominal`, refuting `classify(30.0) = High`. -/
theorem classify_boundary_not_upper :
    classify 20 = Category.Nominal ∧ classify 30 = Category.Nominal ∧
    classify 50 = Category.Nominal ∧ classify 100 = Category.Extreme ∧
    Category.Nominal ≠ Category.Elevated ∧ Category.Nominal ≠ Category.High := by
  decide

/-- Claim C1 (amended): the threshold bands of the classifier are open
intervals: `classify v = Elevated` exactly on `(20, 30)`, `High` exactly
on `(30, 50)`, `Severe` exactly on `(50, 100)`, `Extreme` exactly on
`[100, ∞)`, and `Nominal` exactly on the rest, i.e. `v ≤ 20` together
with the interior boundary points `30` and `50`. -/
theorem classify_open_bands (v : ℚ) :
    (classify v = Category.Nominal ↔ v ≤ 20 ∨ v = 30 ∨ v = 50) ∧
    (classify v = Category.Elevated ↔ 20 < v ∧ v < 30) ∧
    (classify v = Category.High ↔ 30 < v ∧ v < 50) ∧
    (classify v = Category.Severe ↔ 50 < v ∧ v < 100) ∧
    (classify v = Category.Extreme ↔ 100 ≤ v) := by
  unfold classify
  split_ifs with h1 h2 h3 h4 <;>
    refine ⟨?_, ?_, ?_, ?_, ?_⟩ <;>
    simp only [reduceCtorEq, false_iff, true_iff] <;>
    try push_neg
  all_goals try push_neg at h1
  all_goals try push_neg at h2
  all_goals try push_neg at h3
  all_goals try push_neg at h4
  all_goals
    first
      | exact h1
      | exact h2
      | exact h3
      | exact h4
      | linarith
      | (intro hv; linarith)
      | (refine ⟨by linarith, ?_, ?_⟩ <;>
          first
            | exact ne_of_lt (by linarith)
            | exact ne_of_gt (by linarith))
      | exact classify_nominal_aux h1 h2 h3 h4

/-- Claim C2: `ProtonFlux.__init__` with a missing snapshot invokes
exactly one download; with a snapshot of age `now - mtime > ttl` it
invokes exactly one download; with age `now - mtime ≤ ttl` it invokes
zero downloads and its outcome is exactly `readcache`'s outcome (the
existing snapshot deserialized, nothing written, no source access). -/
theorem pfInit_ttl_refresh (now ttl mtime : ℚ) (c : PickleContent)
    (dl : Except NetErr FluxData) :
    downloadCalls none now ttl = 1 ∧
    (now - mtime > ttl → downloadCalls (some ⟨mtime, c⟩) now ttl = 1) ∧
    (now - mtime ≤ ttl →
      downloadCalls (some ⟨mtime, c⟩) now ttl = 0 ∧
      pfInit (some ⟨mtime, c⟩) now ttl dl =
        (readcache c).map fun d => ⟨0, d, false⟩) := by
  refine ⟨rfl, fun h => by simp [downloadCalls, h], fun h => ?_⟩
  have h' : ¬ now - mtime > ttl := not_lt.mpr h
  exact ⟨by simp [downloadCalls, h'], by simp [pfInit, h']⟩

/-- Witness for C2: a 1000-second-old snapshot against a 900-second TTL
downloads once; a 500-second-old one downloads zero times. -/
theorem pfInit_ttl_refresh_witness :
    downloadCalls (some ⟨0, .ok []⟩) 1000 900 = 1 ∧
    downloadCalls (some ⟨500, .ok []⟩) 1000 900 = 0 :=
  ⟨(pfInit_ttl_refresh 1000 900 0 (.ok []) (.ok [])).2.1 (by norm_num),
   ((pfInit_ttl_refresh 1000 900 500 (.ok []) (.ok [])).2.2 (by norm_num)).1⟩

/-- Claim C3 (counterexample): when the download fails,
`ProtonFlux.__init__` raises instead of soft-failing: with a stale
snapshot present the error propagates (no stale payload is returned),
and with no snapshot the error propagates (no empty payload is
returned). -/
theorem pfInit_refresh_failure_raises :
    pfInit (some ⟨0, .ok [(1, initBands)]⟩) 1000 900 (.error .urlError)
      = .error (.net .urlError) ∧
    pfInit none 1000 900 (.error .urlError) = .error (.net .urlError) := by
  exact ⟨by norm_num [pfInit, doRefresh], rfl⟩

/-- Claim C3 (amended): `download` has no exception handler, so whenever
`__init__` takes the refresh branch (absent or stale snapshot) and the
download fails, the exception propagates out of the constructor; no
stale snapshot and no empty payload is ever substituted. -/
theorem pfInit_refresh_failure_propagates (file : Option CacheFile)
    (now ttl : ℚ) (e : NetErr) (h : downloadCalls file now ttl = 1) :
    pfInit file now ttl (.error e) = .error (.net e) := by
  match file with
  | none => rfl
  | some f =>
      by_cases hs : now - f.mtime > ttl
      · simp [pfInit, hs, doRefresh]
      · simp [downloadCalls, hs] at h

/-- Witness for C3 (amended): an absent snapshot with a failing download
propagates the network error. -/
theorem pfInit_refresh_failure_propagates_witness :
    pfInit none 0 900 (.error .urlError) = .error (.net .urlError) :=
  pfInit_refresh_failure_propagates none 0 900 .urlError rfl

/-- Claim C4 (counterexample): a fresh snapshot whose payload is
corrupted (empty pickle) is NOT treated as absent: `__init__` performs
zero downloads and ends with `data = None` — refuting both the
unconditional refresh and the freshly-fetched, never-absent payload. -/
theorem pfInit_corrupt_fresh_no_refresh :
    pfInit (some ⟨0, .empty⟩) 100 900 (.ok [(1, initBands)])
      = .ok ⟨0, none, false⟩ ∧
    downloadCalls (some ⟨0, .empty⟩) 100 900 = 0 := by
  exact ⟨by norm_num [pfInit, readcache, Except.map],
         by norm_num [downloadCalls]⟩

/-- Claim C4 (amended): corruption never triggers a refresh, because
staleness alone (mtime age) selects the branch: a fresh snapshot whose
unpickling hits `EOFError` yields `data = None` with zero downloads,
and one whose unpickling fails otherwise propagates the unpickling
error — neither behaves like the absent-snapshot case. -/
theorem pfInit_fresh_corrupt_behavior (now ttl mtime : ℚ)
    (dl : Except NetErr FluxData) (h : now - mtime ≤ ttl) :
    pfInit (some ⟨mtime, .empty⟩) now ttl dl = .ok ⟨0, none, false⟩ ∧
    pfInit (some ⟨mtime, .garbage⟩) now ttl dl = .error .unpickling := by
  have h' : ¬ now - mtime > ttl := not_lt.mpr h
  constructor <;> simp [pfInit, h', readcache, Except.map]

/-- Witness for C4 (amended): a 100-second-old snapshot against a
900-second TTL, with both corruption kinds. -/
theorem pfInit_fresh_corrupt_behavior_witness :
    pfInit (some ⟨0, .empty⟩) 100 900 (.ok []) = .ok ⟨0, none, false⟩ ∧
    pfInit (some ⟨0, .garbage⟩) 100 900 (.ok []) = .error .unpickling :=
  pfInit_fresh_corrupt_behavior 100 900 0 (.ok []) (by norm_num)

/-- Claim C9 (counterexample): `writecache` truncates the canonical path
in place (`open(…, 'wb')`) before writing, so a reader can observe a
state that is neither the complete old payload nor the complete new
one. -/
theorem writecache_not_atomic :
    ¬ ∀ s ∈ writecacheStates [1] [2], s = [1] ∨ s = [2] := by decide

/-- Claim C9 (amended): `writecache` writes in place with no temporary
file and no atomic replace: the write does complete with the new
payload as the final content, but for any non-empty old and new
payloads there is an observable intermediate state (the truncated file)
that equals neither. -/
theorem writecache_in_place (pre pickled : List ℕ)
    (hpre : pre ≠ []) (hnew : pickled ≠ []) :
    (writecacheStates pre pickled).getLast? = some pickled ∧
    ∃ s ∈ writecacheStates pre pickled, s ≠ pre ∧ s ≠ pickled :=
  ⟨rfl, ⟨[], by simp [writecacheStates],
    fun h => hpre h.symm, fun h => hnew h.symm⟩⟩

/-- Witness for C9 (amended): old payload `[1]`, new payload `[2]`. -/
theorem writecache_in_place_witness :
    (writecacheStates [1] [2]).getLast? = some [2] ∧
    ∃ s ∈ writecacheStates [1] [2], s ≠ [1] ∧ s ≠ [2] :=
  writecache_in_place [1] [2] (by decide) (by decide)

/-- Claim C5: `get_wwv` emits its daily buckets in strictly ascending
date order, and permuting the input samples changes neither the bucket
sequence nor any of its values. -/
theorem get_wwv_perm_sorted (rows rows' : List WWVRow) (since : ℤ)
    (p : List.Perm rows rows') :
    get_wwv rows since = get_wwv rows' since ∧
    ((get_wwv rows since).map Prod.fst).Pairwise (· < ·) := by
  have hf : List.Perm (wwvFilter rows since) (wwvFilter rows' since) :=
    List.Perm.filter _ p
  constructor
  · unfold get_wwv
    rw [sortedKeys_perm hf]
    refine List.map_congr_left fun d hd => ?_
    have hg : List.Perm ((dayGroup rows since d).map WWVRow.A)
        ((dayGroup rows' since d).map WWVRow.A) :=
      List.Perm.map _ (List.Perm.filter _ hf)
    unfold dayBucket
    rw [maxA_perm hg, avgA_perm hg, minA_perm hg]
  · rw [get_wwv_keys]
    exact sortedKeys_pairwise _

/-- Witness for C5: two samples listed in either order aggregate to the
same buckets, and the bucket dates ascend. -/
theorem get_wwv_perm_sorted_witness :
    get_wwv [⟨86400, 5⟩, ⟨0, 3⟩] (-1) = get_wwv [⟨0, 3⟩, ⟨86400, 5⟩] (-1) ∧
    ((get_wwv [⟨86400, 5⟩, ⟨0, 3⟩] (-1)).map Prod.fst).Pairwise (· < ·) :=
  get_wwv_perm_sorted _ _ _ (by decide)

/-- Claim C6 (counterexample): the SQL filter `wwv.time > ?` is strict,
so a sample whose timestamp equals the lower bound contributes to no
bucket: with `since = 0` a lone sample at time 0 produces an empty
result, while the same sample one second later produces its bucket. -/
theorem get_wwv_boundary_excluded :
    get_wwv [⟨0, 5⟩] 0 = [] ∧ get_wwv [⟨1, 5⟩] 0 = [(0, 5, 5, 5)] := by
  constructor
  · rfl
  · norm_num [get_wwv, dayBucket, sortedKeys, wwvFilter, dayGroup,
      insertKey, dayKey, maxA, minA, avgA, Int.fdiv]

/-- Claim C6 (amended): the aggregation includes exactly the samples
with timestamp strictly greater than `since` (the lower bound is
exclusive): a day has a bucket exactly when some sample of that day has
`timestamp > since`, so a sample with `timestamp = since` never
contributes. -/
theorem get_wwv_strict_bound (rows : List WWVRow) (since d : ℤ) :
    d ∈ (get_wwv rows since).map Prod.fst ↔
      ∃ r ∈ rows, since < r.time ∧ dayKey r.time = d := by
  rw [get_wwv_keys, mem_sortedKeys]
  constructor
  · rintro ⟨r, hr, rfl⟩
    rw [wwvFilter, List.mem_filter] at hr
    exact ⟨r, hr.1, by simpa using hr.2, rfl⟩
  · rintro ⟨r, hr, ht, rfl⟩
    refine ⟨r, ?_, rfl⟩
    rw [wwvFilter, List.mem_filter]
    exact ⟨hr, by simpa using ht⟩

/-- Claim C7: every bucket `get_wwv` emits satisfies `min ≤ avg ≤ max`,
and a bucket whose day group holds a single sample has
`max = min = avg =` that sample's value. -/
theorem get_wwv_bucket_bounds (rows : List WWVRow) (since d : ℤ)
    (mx av mn : ℚ) (h : (d, mx, av, mn) ∈ get_wwv rows since) :
    (mn ≤ av ∧ av ≤ mx) ∧
    ∀ r : WWVRow, dayGroup rows since d = [r] →
      mx = r.A ∧ mn = r.A ∧ av = r.A := by
  unfold get_wwv at h
  rcases List.mem_map.mp h with ⟨k, hk, hb⟩
  unfold dayBucket at hb
  rw [Prod.ext_iff] at hb
  obtain ⟨hkd, hb⟩ := hb
  simp only at hkd
  subst hkd
  rw [Prod.ext_iff] at hb
  obtain ⟨hmx, hb⟩ := hb
  rw [Prod.ext_iff] at hb
  obtain ⟨hav, hmn⟩ := hb
  simp only at hmx hav hmn
  have hne : (dayGroup rows since k).map WWVRow.A ≠ [] := by
    rcases mem_sortedKeys.mp hk with ⟨r, hr, hrk⟩
    have : r ∈ dayGroup rows since k := by
      rw [dayGroup, List.mem_filter]
      exact ⟨hr, by simpa using hrk⟩
    exact List.ne_nil_of_mem (List.mem_map_of_mem WWVRow.A this)
  constructor
  · obtain ⟨h1, h2⟩ := avgA_between hne
    exact ⟨hmn ▸ hav ▸ h1, hav ▸ hmx ▸ h2⟩
  · intro r hr
    rw [hr] at hmx hav hmn
    simp only [List.map_cons, List.map_nil, maxA, minA, avgA,
      List.foldl_nil, List.sum_cons, List.sum_nil, List.length_cons,
      List.length_nil] at hmx hav hmn
    refine ⟨hmx.symm, hmn.symm, ?_⟩
    rw [← hav]
    norm_num

/-- Witness for C7: the two-sample day `[(3h, 15), (20h, 45)]` gives the
bucket `(day 0, 45, 30, 15)` with `15 ≤ 30 ≤ 45`, and a singleton day
group gives `max = min = avg`. -/
theorem get_wwv_bucket_bounds_witness :
    ((15 : ℚ) ≤ 30 ∧ (30 : ℚ) ≤ 45) ∧
    ∀ r : WWVRow, dayGroup [⟨10800, 15⟩, ⟨72000, 45⟩] (-1) 0 = [r] →
      (45 : ℚ) = r.A ∧ (15 : ℚ) = r.A ∧ (30 : ℚ) = r.A :=
  get_wwv_bucket_bounds [⟨10800, 15⟩, ⟨72000, 45⟩] (-1) 0 45 30 15
    (by norm_num [get_wwv, dayBucket, sortedKeys, wwvFilter, dayGroup,
      insertKey, dayKey, maxA, minA, avgA, Int.fdiv])

theorem dictGet_dictInsert_self {α : Type} (k : ℕ) (v : α) (d : List (ℕ × α)) :
    dictGet k (dictInsert k v d) = some v := by
  induction d with
  | nil => simp [dictInsert, dictGet]
  | cons p rest ih =>
      obtain ⟨k', v'⟩ := p
      by_cases h : k = k'
      · simp [dictInsert, dictGet, h]
      · simp [dictInsert, dictGet, h, ih]

theorem dictGet_dictInsert_ne {α : Type} {q k : ℕ} (h : q ≠ k) (v : α)
    (d : List (ℕ × α)) : dictGet q (dictInsert k v d) = dictGet q d := by
  induction d with
  | nil => simp [dictInsert, dictGet, h]
  | cons p rest ih =>
      obtain ⟨k', v'⟩ := p
      by_cases hk : k = k'
      · subst hk
        simp [dictInsert, dictGet, h]
      · by_cases hq : q = k'
        · simp [dictInsert, dictGet, hk, hq]
        · simp [dictInsert, dictGet, hk, hq, ih]

/-- After the seeding loop, every timestamp occurring in the input is
bound to the all-zero band dictionary. -/
theorem seedLoop_get (rows : List FluxRow) :
    ∀ (d : FluxData) (t : ℕ),
      (t ∈ rows.map FluxRow.time_tag ∨ dictGet t d = some initBands) →
      dictGet t (seedLoop rows d) = some initBands := by
  induction rows with
  | nil =>
      rintro d t (h | h)
      · simp at h
      · exact h
  | cons r rs ih =>
      rintro d t (h | h)
      · simp only [List.map_cons, List.mem_cons] at h
        rcases h with ht | ht
        · refine ih _ t (Or.inr ?_)
          rw [ht]
          exact dictGet_dictInsert_self _ _ _
        · exact ih _ t (Or.inl ht)
      · by_cases ht : t = r.time_tag
        · refine ih _ t (Or.inr ?_)
          rw [ht]
          exact dictGet_dictInsert_self _ _ _
        · refine ih _ t (Or.inr ?_)
          rw [dictGet_dictInsert_ne ht]
          exact h

/-- The filling loop preserves the presence of every `(timestamp, band)`
entry, and leaves its value unchanged when no input row addresses that
pair. -/
theorem fillLoop_get (rows : List FluxRow) :
    ∀ (d : FluxData) (t b : ℕ) (m : BandMap) (v : ℚ),
      dictGet t d = some m → dictGet b m = some v →
      ∃ m' v', dictGet t (fillLoop rows d) = some m' ∧ dictGet b m' = some v' ∧
        ((∀ r ∈ rows, ¬(r.time_tag = t ∧ r.energy = b)) → v' = v) := by
  induction rows with
  | nil =>
      intro d t b m v hm hv
      exact ⟨m, v, hm, hv, fun _ => rfl⟩
  | cons r rs ih =>
      intro d t b m v hm hv
      by_cases ht : r.time_tag = t
      · have hget : (dictGet r.time_tag d).getD [] = m := by
          rw [ht, hm]
          rfl
        have hstep : dictGet t
            (dictInsert r.time_tag
              (dictInsert r.energy r.flux ((dictGet r.time_tag d).getD [])) d)
            = some (dictInsert r.energy r.flux m) := by
          rw [hget, ← ht]
          exact dictGet_dictInsert_self _ _ _
        by_cases he : r.energy = b
        · have hinner : dictGet b (dictInsert r.energy r.flux m) = some r.flux := by
            rw [← he]
            exact dictGet_dictInsert_self _ _ _
          obtain ⟨m', v', h1, h2, h3⟩ := ih _ t b _ r.flux hstep hinner
          exact ⟨m', v', h1, h2,
            fun hall => absurd ⟨ht, he⟩ (hall r (List.mem_cons_self r rs))⟩
        · have hinner : dictGet b (dictInsert r.energy r.flux m) = some v := by
            rw [dictGet_dictInsert_ne fun hh => he hh.symm]
            exact hv
          obtain ⟨m', v', h1, h2, h3⟩ := ih _ t b _ v hstep hinner
          exact ⟨m', v', h1, h2,
            fun hall => h3 fun r' hr' => hall r' (List.mem_cons_of_mem _ hr')⟩
      · have hstep : dictGet t
            (dictInsert r.time_tag
              (dictInsert r.energy r.flux ((dictGet r.time_tag d).getD [])) d)
            = some m := by
          rw [dictGet_dictInsert_ne fun hh => ht hh.symm]
          exact hm
        obtain ⟨m', v', h1, h2, h3⟩ := ih _ t b m v hstep hv
        exact ⟨m', v', h1, h2,
          fun hall => h3 fun r' hr' => hall r' (List.mem_cons_of_mem _ hr')⟩

theorem initBands_get {b : ℕ} (hb : b ∈ fixedBands) :
    dictGet b initBands = some 0 := by
  fin_cases hb <;> rfl

/-- Claim C8: the structure `download` builds maps every timestamp of
the parsed payload to a value for every band of the fixed tuple
`(1, 10, 100, 30, 5, 50, 500, 60)`; a band with no sample at a
timestamp is present with the sentinel `0.0` rather than omitted, so
all band series share the payload's timestamp set. -/
theorem downloadData_dense_bands (rows : List FluxRow) (t b : ℕ)
    (ht : t ∈ rows.map FluxRow.time_tag) (hb : b ∈ fixedBands) :
    (bandValue (downloadData rows) t b).isSome = true ∧
    ((∀ r ∈ rows, ¬(r.time_tag = t ∧ r.energy = b)) →
      bandValue (downloadData rows) t b = some 0) := by
  have h0 : dictGet t (seedLoop rows []) = some initBands :=
    seedLoop_get rows [] t (Or.inl ht)
  obtain ⟨m', v', h1, h2, h3⟩ :=
    fillLoop_get rows (seedLoop rows []) t b initBands 0 h0 (initBands_get hb)
  have hbv : bandValue (downloadData rows) t b = some v' := by
    rw [bandValue, downloadData, h1]
    exact h2
  refine ⟨by rw [hbv]; rfl, fun hall => by rw [hbv, h3 hall]⟩

/-- Witness for C8: a single sample at timestamp 100 in band 10 leaves
band 5 present at timestamp 100 with value 0. -/
theorem downloadData_dense_bands_witness :
    (bandValue (downloadData [⟨100, 10, 7⟩]) 100 5).isSome = true ∧
    ((∀ r ∈ [(⟨100, 10, 7⟩ : FluxRow)], ¬(r.time_tag = 100 ∧ r.energy = 5)) →
      bandValue (downloadData [⟨100, 10, 7⟩]) 100 5 = some 0) :=
  downloadData_dense_bands [⟨100, 10, 7⟩] 100 5 (by decide) (by decide)

/-- Claim C10: `ProtonFlux.graph` has no return statement, so a
non-raising call returns `None`, which is falsy; `main` therefore takes
the `return os.EX_DATAERR` branch and exits with the non-zero status
65. -/
theorem main_exit_dataerr :
    mainExit graphReturn = EX_DATAERR ∧ EX_DATAERR ≠ 0 := by decide

end SunFlux
